import Mathlib

/-!
Verification development for the well-trajectory key-point post-processing
pipeline (`main.py`): the dynamic-programming decoder `dp_post_process`, the
batch driver `advanced_post_process`, and the tolerance-aware metric
`macro_f1_with_tolerance`.  Real-valued quantities (probabilities, angles,
scores) are embedded as rationals; sample positions are naturals.
-/

namespace WellKP

/-- Python slice `l[a:b]` for `0 ≤ a ≤ b` (clamped at the end of the list). -/
def sliceL (l : List ℚ) (a b : ℕ) : List ℚ := (l.drop a).take (b - a)

/-- `np.mean` of a list (the code only takes means of nonempty windows;
on `[]` this returns `0` where numpy would return NaN). -/
def listMean (l : List ℚ) : ℚ := l.sum / l.length

/-- Population variance, `np.var` with the default `ddof=0`.  The source
compares `np.std(w) < c`; since both sides are nonnegative this is equivalent
to `varPop w < c^2`, which is how every standard-deviation test is embedded
(keeping everything inside ℚ). -/
def varPop (l : List ℚ) : ℚ :=
  (l.map (fun x => (x - listMean l) ^ 2)).sum / l.length

/-- `np.diff(jx, prepend=jx[0])`: first difference with a leading `0`. -/
def diffPrepend (jx : List ℚ) : List ℚ :=
  match jx with
  | [] => []
  | x :: xs => List.zipWith (fun a b => a - b) (x :: xs) (x :: x :: xs)

/-- The physical-trend bonus of `dp_post_process` (main.py lines 472-488):
`3/10` when the class-specific trend criterion holds, else `0`.
For class 2 the source tests `np.std(jx_diff[idx-10:idx+10]) < 0.2`,
embedded as the equivalent variance comparison. -/
def physScore (kp : ℕ) (jx : List ℚ) (idx : ℕ) : ℚ :=
  let n := jx.length
  if kp = 1 then
    if idx < n - 10 then
      if listMean (sliceL jx (idx + 1) (idx + 11)) - jx.getD idx 0 > 1 / 2 then 3 / 10 else 0
    else 0
  else if kp = 2 then
    if 10 ≤ idx ∧ idx < n - 10 then
      if varPop (sliceL (diffPrepend jx) (idx - 10) (idx + 10)) < (1 / 5) ^ 2 then 3 / 10 else 0
    else 0
  else if kp = 3 then
    if idx < n - 10 then
      if listMean (sliceL jx (idx + 1) (idx + 11)) - jx.getD idx 0 < -(3 / 10) then 3 / 10 else 0
    else 0
  else 0

/-- Prior-proximity bonus (main.py lines 491-495): when a prior position is
supplied and `|idx - prior| < 15`, add `0.2 * (1 - dist/15)`. -/
def priorScore (prior : Option ℕ) (idx : ℕ) : ℚ :=
  match prior with
  | none => 0
  | some p =>
    let d : ℕ := ((idx : ℤ) - (p : ℤ)).natAbs
    if d < 15 then (1 / 5) * (1 - (d : ℚ) / 15) else 0

/-- Comparison of positions by the probability stored at them (used to embed
`np.argsort`, ascending). -/
def leAt (l : List ℚ) (i j : ℕ) : Prop := l.getD i 0 ≤ l.getD j 0

instance (l : List ℚ) : DecidableRel (leAt l) :=
  fun i j => inferInstanceAs (Decidable (l.getD i 0 ≤ l.getD j 0))

/-- `np.argsort(l)`: indices `0..n-1` sorted by ascending value.  numpy's
default quicksort leaves the order of equal values unspecified; this embedding
fixes it to be stable (smaller index first), and no theorem below depends on
the order of equal values. -/
def argsortAsc (l : List ℚ) : List ℕ :=
  List.insertionSort (leAt l) (List.range l.length)

/-- The last `k` elements of a list, `l[-k:]`. -/
def lastN (k : ℕ) (l : List α) : List α := l.drop (l.length - k)

/-- Descending-by-score comparison on candidates; `list.sort(key=score,
reverse=True)` in Python is a stable sort w.r.t. this relation. -/
def scoreGe (a b : ℕ × ℚ) : Prop := b.2 ≤ a.2

instance : DecidableRel scoreGe :=
  fun a b => inferInstanceAs (Decidable (b.2 ≤ a.2))

instance : IsTotal (ℕ × ℚ) scoreGe := ⟨fun a b => le_total b.2 a.2⟩

instance : IsTrans (ℕ × ℚ) scoreGe := ⟨fun _ _ _ h1 h2 => le_trans h2 h1⟩

/-- Candidate generation for one class (main.py lines 463-501): take the
top-10 positions of the class-probability column by `argsort`, keep those with
probability strictly above `0.1`, score them as
probability + trend bonus + prior bonus, and stable-sort descending by score. -/
def genCandidates (kp : ℕ) (jx : List ℚ) (kpProba : List ℚ) (prior : Option ℕ) :
    List (ℕ × ℚ) :=
  let raw := (lastN 10 (argsortAsc kpProba)).filterMap fun idx =>
    if kpProba.getD idx 0 > 1 / 10 then
      some (idx, kpProba.getD idx 0 + physScore kp jx idx + priorScore prior idx)
    else none
  List.insertionSort scoreGe raw

/-- One row of the fused `N×4` probability matrix. -/
structure ProbRow where
  p0 : ℚ
  p1 : ℚ
  p2 : ℚ
  p3 : ℚ
deriving DecidableEq, Repr

/-- The zero probability row. -/
def zeroRow : ProbRow := ⟨0, 0, 0, 0⟩

/-- Column `kp` of a probability matrix, `model_proba[:, kp]`. -/
def colK (kp : ℕ) (m : List ProbRow) : List ℚ :=
  if kp = 1 then m.map ProbRow.p1
  else if kp = 2 then m.map ProbRow.p2
  else if kp = 3 then m.map ProbRow.p3
  else m.map ProbRow.p0

/-- The decoder's result: the Python dict `best_combo`, a partial map from
class in {1,2,3} to a position. -/
structure Combo where
  k1 : Option ℕ
  k2 : Option ℕ
  k3 : Option ℕ
deriving DecidableEq, Repr

/-- Score of one enumerated triple: sum of the candidate scores, an absent
class-3 contributing `0` (the `(None, 0)` sentinel of the source). -/
def tripleScore (a b : ℕ × ℚ) (c : Option (ℕ × ℚ)) : ℚ :=
  a.2 + b.2 + (match c with | none => 0 | some x => x.2)

/-- The combo built from one enumerated triple. -/
def tripleCombo (a b : ℕ × ℚ) (c : Option (ℕ × ℚ)) : Combo :=
  ⟨some a.1, some b.1, c.map Prod.fst⟩

/-- The running best score; `-1` before any admissible triple is found. -/
def bestScoreOf (o : Option (Combo × ℚ)) : ℚ :=
  match o with
  | none => -1
  | some x => x.2

/-- One step of the enumeration in main.py lines 508-527: skip the triple if a
spacing constraint fails, otherwise keep it when it strictly beats the best. -/
def searchStep (best : Option (Combo × ℚ))
    (t : (ℕ × ℚ) × (ℕ × ℚ) × Option (ℕ × ℚ)) : Option (Combo × ℚ) :=
  let a := t.1
  let b := t.2.1
  let c := t.2.2
  if b.1 < a.1 + 20 then best
  else
    match c with
    | some k3 =>
      if k3.1 < b.1 + 20 then best
      else if bestScoreOf best < tripleScore a b (some k3) then
        some (tripleCombo a b (some k3), tripleScore a b (some k3))
      else best
    | none =>
      if bestScoreOf best < tripleScore a b none then
        some (tripleCombo a b none, tripleScore a b none)
      else best

/-- The enumeration order of the three nested loops: top-5 of class 1, top-5
of class 2, then top-5 of class 3 followed by the `(None, 0)` option. -/
def enumTriples (c1 c2 c3 : List (ℕ × ℚ)) :
    List ((ℕ × ℚ) × (ℕ × ℚ) × Option (ℕ × ℚ)) :=
  (c1.take 5).flatMap fun a =>
    (c2.take 5).flatMap fun b =>
      ((c3.take 5).map some ++ [none]).map fun c => (a, b, c)

/-- The constrained search of main.py lines 504-527: best admissible triple,
`none` when no admissible triple exists among the top-5 candidates. -/
def searchBest (c1 c2 c3 : List (ℕ × ℚ)) : Option (Combo × ℚ) :=
  (enumTriples c1 c2 c3).foldl searchStep none

/-- The fallback of main.py lines 529-534: for each class independently, the
position of its first (= highest-scoring) candidate, omitted when the class
has no candidates. -/
def fallbackCombo (c1 c2 c3 : List (ℕ × ℚ)) : Combo :=
  ⟨c1.head?.map Prod.fst, c2.head?.map Prod.fst, c3.head?.map Prod.fst⟩

/-- `dp_post_process` (main.py lines 446-536): generate candidates per class
from the probability columns, run the constrained search, and on failure fall
back to the best single candidate of each class independently. -/
def dp_post_process (jx : List ℚ) (proba : List ProbRow)
    (prior1 prior2 prior3 : Option ℕ) : Combo :=
  let c1 := genCandidates 1 jx (colK 1 proba) prior1
  let c2 := genCandidates 2 jx (colK 2 proba) prior2
  let c3 := genCandidates 3 jx (colK 3 proba) prior3
  match searchBest c1 c2 c3 with
  | some bc => bc.1
  | none => fallbackCombo c1 c2 c3

/-- A combo satisfying the ordering/spacing constraints of the search:
classes 1 and 2 present with a gap of at least 20, and class 3, when present,
at least 20 after class 2. -/
def GoodCombo (c : Combo) : Prop :=
  ∃ i j, c.k1 = some i ∧ c.k2 = some j ∧ i + 20 ≤ j ∧
    ∀ k, c.k3 = some k → j + 20 ≤ k

/-! ### The batch driver advanced_post_process (main.py lines 539-579) -/

/-- First-occurrence deduplication, the order produced by pandas
`Series.unique()`; `seen` accumulates the values already emitted. -/
def uniqueAux (seen : List ℕ) : List ℕ → List ℕ
  | [] => []
  | x :: xs => if x ∈ seen then uniqueAux seen xs else x :: uniqueAux (x :: seen) xs

/-- `test_features['well_id'].unique()`: distinct values in first-occurrence
order. -/
def uniqueList (l : List ℕ) : List ℕ := uniqueAux [] l

/-- `np.where(well_ids == w)[0]`: the ascending list of global sample indices
of sequence `w`. -/
def groupIdx (wellIds : List ℕ) (w : ℕ) : List ℕ :=
  (List.range wellIds.length).filter fun i => wellIds.getD i 0 == w

/-- `np.min` of a list (`0` on `[]`, where numpy would raise; every call in
the driver is on a nonempty group). -/
def listMin : List ℚ → ℚ
  | [] => 0
  | [x] => x
  | x :: y :: xs => min x (listMin (y :: xs))

/-- One step of the argmin scan: keep the running best unless the new value
is strictly smaller (so the first occurrence of the minimum wins). -/
def amStep (l : List ℚ) (best i : ℕ) : ℕ :=
  if l.getD i 0 < l.getD best 0 then i else best

/-- `np.argmin`: the first index attaining the minimum (`0` on `[]`). -/
def argminFirst (l : List ℚ) : ℕ :=
  (List.range l.length).foldl (amStep l) 0

/-- Prior extraction of main.py lines 561-568: when the per-class
distance-to-prior column is present, gather its values at the group's
indices; if the minimum is below 900 the hint is the argmin (a group-local
index), otherwise no hint. -/
def extractPrior (col : Option (List ℚ)) (gidx : List ℕ) : Option ℕ :=
  match col with
  | none => none
  | some c =>
    let d := gidx.map fun i => c.getD i 0
    if listMin d < 900 then some (argminFirst d) else none

/-- Elementwise sum of two probability rows. -/
def addRow (a b : ProbRow) : ProbRow :=
  ⟨a.p0 + b.p0, a.p1 + b.p1, a.p2 + b.p2, a.p3 + b.p3⟩

/-- A probability row scaled by a fusion weight. -/
def scaleRow (w : ℚ) (r : ProbRow) : ProbRow :=
  ⟨w * r.p0, w * r.p1, w * r.p2, w * r.p3⟩

/-- The fusion loop of main.py lines 546-550:
`final_proba = Σ_source weight * proba`, starting from the zero `n×4` matrix.
Each source is paired with the weight the driver looks up for it (numpy
raises on shape mismatch; every theorem uses matrices of matching length). -/
def fuseProba (n : ℕ) (sources : List (List ProbRow × ℚ)) : List ProbRow :=
  sources.foldl
    (fun acc mw => List.zipWith addRow acc (mw.1.map (scaleRow mw.2)))
    (List.replicate n zeroRow)

/-- The per-well decode of main.py lines 555-571: restrict the angle column
and fused matrix to the well's samples, extract the three prior hints, and
run the decoder. -/
def comboOf (wellIds : List ℕ) (jxs : List ℚ) (fused : List ProbRow)
    (d1 d2 d3 : Option (List ℚ)) (w : ℕ) : Combo :=
  let g := groupIdx wellIds w
  dp_post_process (g.map fun i => jxs.getD i 0)
    (g.map fun i => fused.getD i zeroRow)
    (extractPrior d1 g) (extractPrior d2 g) (extractPrior d3 g)

/-- One write of the marking loop (main.py lines 574-577): when class `kp`
is assigned a group-local index in bounds, set the label at the corresponding
global index. -/
def markStep (g : List ℕ) (kp : ℕ) (o : Option ℕ) (pred : List ℕ) : List ℕ :=
  match o with
  | none => pred
  | some idx => if idx < g.length then pred.set (g.getD idx 0) kp else pred

/-- The marking loop over `best_combo.items()`, whose insertion order is
always class 1, then 2, then 3. -/
def markCombo (g : List ℕ) (c : Combo) (pred : List ℕ) : List ℕ :=
  markStep g 3 c.k3 (markStep g 2 c.k2 (markStep g 1 c.k1 pred))

/-- Processing of one well inside the driver's loop. -/
def processWell (wellIds : List ℕ) (jxs : List ℚ) (fused : List ProbRow)
    (d1 d2 d3 : Option (List ℚ)) (pred : List ℕ) (w : ℕ) : List ℕ :=
  markCombo (groupIdx wellIds w) (comboOf wellIds jxs fused d1 d2 d3 w) pred

/-- `advanced_post_process` (main.py lines 539-579): fuse the probability
sources, then for each distinct well id (first-occurrence order) decode the
well and write its assigned classes into the global label vector, which
starts as all zeros. -/
def advanced_post_process (wellIds : List ℕ) (jxs : List ℚ)
    (sources : List (List ProbRow × ℚ)) (d1 d2 d3 : Option (List ℚ)) :
    List ℕ :=
  (uniqueList wellIds).foldl
    (processWell wellIds jxs (fuseProba wellIds.length sources) d1 d2 d3)
    (List.replicate wellIds.length 0)

/-- The global indices a well's combo writes to: for each assigned class
whose group-local index is in bounds, the global index it maps to. -/
def selectedIdxs (g : List ℕ) (c : Combo) : List ℕ :=
  [c.k1, c.k2, c.k3].filterMap fun o =>
    o.bind fun idx => if idx < g.length then some (g.getD idx 0) else none

/-! ### The metric macro_f1_with_tolerance (main.py lines 76-123) -/

/-- `np.unique`: distinct values in ascending order. -/
def npUnique (l : List ℕ) : List ℕ :=
  List.insertionSort (fun a b => a ≤ b) (uniqueList l)

/-- The first global index in `idxs` whose label is `kp`
(`indices[labels == kp][0]` guarded by nonemptiness). -/
def firstIdxWith (lbls idxs : List ℕ) (kp : ℕ) : Option ℕ :=
  idxs.find? fun i => lbls.getD i 0 == kp

/-- One class of the forgiveness loop (main.py lines 107-120): when both a
true and a predicted position exist for class `kp` and they are within the
class tolerance, clear the predicted position and write `kp` at the true
position; the positions are read from the ORIGINAL arrays. -/
def adjustWellStep (y_true y_pred idxs : List ℕ) (t1 t2 : ℕ)
    (p : List ℕ) (kp : ℕ) : List ℕ :=
  match firstIdxWith y_true idxs kp, firstIdxWith y_pred idxs kp with
  | some tpos, some ppos =>
    if ((tpos : ℤ) - (ppos : ℤ)).natAbs ≤ (if kp = 1 then t1 else t2) then
      (p.set ppos 0).set tpos kp
    else p
  | _, _ => p

/-- The forgiveness adjustment for one well, classes processed in the order
1, 2, 3. -/
def adjustWell (y_true y_pred wellIds : List ℕ) (t1 t2 : ℕ)
    (p : List ℕ) (w : ℕ) : List ℕ :=
  adjustWellStep y_true y_pred (groupIdx wellIds w) t1 t2
    (adjustWellStep y_true y_pred (groupIdx wellIds w) t1 t2
      (adjustWellStep y_true y_pred (groupIdx wellIds w) t1 t2 p 1) 2) 3

/-- The pair (y_true_adjusted, y_pred_adjusted) after the per-well loop of
main.py lines 85-120 (wells in `np.unique` order): both start as copies of
the inputs; the loop only ever writes into the predicted copy. -/
def adjustedPair (y_true y_pred wellIds : List ℕ) (t1 t2 : ℕ) :
    List ℕ × List ℕ :=
  (npUnique wellIds).foldl
    (fun st w => (st.1, adjustWell y_true y_pred wellIds t1 t2 st.2 w))
    (y_true, y_pred)

/-- The adjusted prediction vector alone (the second component of
`adjustedPair`, as a single fold). -/
def adjustedPred (y_true y_pred wellIds : List ℕ) (t1 t2 : ℕ) : List ℕ :=
  (npUnique wellIds).foldl (adjustWell y_true y_pred wellIds t1 t2) y_pred

/-- True positives of class `c` (positions where both vectors equal `c`). -/
def tpN (t p : List ℕ) (c : ℕ) : ℕ :=
  (List.zip t p).countP fun x => x.1 == c && x.2 == c

/-- False positives of class `c`. -/
def fpN (t p : List ℕ) (c : ℕ) : ℕ :=
  (List.zip t p).countP fun x => !(x.1 == c) && x.2 == c

/-- False negatives of class `c`. -/
def fnN (t p : List ℕ) (c : ℕ) : ℕ :=
  (List.zip t p).countP fun x => x.1 == c && !(x.2 == c)

/-- Per-class F1 with sklearn's `zero_division=0`:
`2·tp / (2·tp + fp + fn)`, and `0` when that denominator is zero. -/
def f1Class (t p : List ℕ) (c : ℕ) : ℚ :=
  if 2 * tpN t p c + fpN t p c + fnN t p c = 0 then 0
  else (2 * tpN t p c : ℚ) / (2 * tpN t p c + fpN t p c + fnN t p c : ℕ)

/-- sklearn's label set for `labels=None`: the sorted distinct values
occurring in either vector. -/
def labelsOf (t p : List ℕ) : List ℕ := npUnique (t ++ p)

/-- `f1_score(t, p, average='macro', zero_division=0)`: the unweighted mean
of the per-class F1 over `labelsOf t p`. -/
def sklearnMacroF1 (t p : List ℕ) : ℚ :=
  ((labelsOf t p).map (f1Class t p)).sum / (labelsOf t p).length

/-- `macro_f1_with_tolerance` (main.py lines 76-123): forgiveness-adjust,
then macro F1 of the adjusted pair. -/
def macro_f1_with_tolerance (y_true y_pred wellIds : List ℕ)
    (t1 t2 : ℕ) : ℚ :=
  sklearnMacroF1 (adjustedPair y_true y_pred wellIds t1 t2).1
    (adjustedPair y_true y_pred wellIds t1 t2).2

/-- The macro F1 described by the specification's words for C7: the four
classes {0,1,2,3} always averaged, an absent class contributing 0.  This is
the claim-side definition, written for comparison with `sklearnMacroF1`, which is
the embedding of what the code (sklearn with `labels=None`) computes. -/
def macroF1overFour (t p : List ℕ) : ℚ :=
  ((List.range 4).map (f1Class t p)).sum / 4

/-! ### Concrete inputs used by counterexamples and witnesses -/

/-- A 5-sample flat sequence. -/
def jxFlat5 : List ℚ := [0, 0, 0, 0, 0]

/-- Probability matrix with a class-1 spike at position 0 and a class-2 spike
at position 2: the two candidates are only 2 apart, so no admissible pair
exists and the decoder takes the fallback path. -/
def probaNear : List ProbRow :=
  [⟨0, 9 / 10, 0, 0⟩, ⟨0, 0, 0, 0⟩, ⟨0, 0, 4 / 5, 0⟩, ⟨0, 0, 0, 0⟩, ⟨0, 0, 0, 0⟩]

/-- Probability matrix with a class-1 spike at position 1 and a class-2 spike
at position 3 (again closer than 20, forcing the fallback). -/
def probaNear2 : List ProbRow :=
  [⟨0, 0, 0, 0⟩, ⟨0, 7 / 10, 0, 0⟩, ⟨0, 0, 0, 0⟩, ⟨0, 0, 3 / 5, 0⟩, ⟨0, 0, 0, 0⟩]

/-- A 25-sample flat sequence. -/
def jxFlat25 : List ℚ := List.replicate 25 0

/-- Probability matrix with a class-1 spike at position 0 and a class-2 spike
at position 22: an admissible pair, so the search succeeds. -/
def probaFar : List ProbRow :=
  (List.range 25).map fun i =>
    if i = 0 then ⟨0, 9 / 10, 0, 0⟩
    else if i = 22 then ⟨0, 0, 4 / 5, 0⟩
    else ⟨0, 0, 0, 0⟩

/-- A 12-sample sequence rising from 0 to 1 right after position 0. -/
def jxRise12 : List ℚ := 0 :: List.replicate 11 1

/-- Class-1 probability column with a single spike 0.5 at position 0. -/
def pSpike0 : List ℚ := 1 / 2 :: List.replicate 11 0

/-- A 20-sample sequence, flat up to position 13 and equal to 3 from
position 14 on. -/
def jxStep20 : List ℚ := List.replicate 14 0 ++ List.replicate 6 3

/-- Class-1 probability column with spikes 0.5 at position 3 and 0.2 at
position 5: after the trend bonus both candidates score 0.5, and the one with
the larger position comes first in generation order. -/
def pTie : List ℚ :=
  [0, 0, 0, 1 / 2, 0, 1 / 5, 0, 0, 0, 0, 0, 0, 0, 0, 0, 0, 0, 0, 0, 0]

/-- Three samples of a single well with id 7. -/
def wellIds9 : List ℕ := [7, 7, 7]

/-- A flat 3-sample angle column. -/
def jxs9 : List ℚ := [0, 0, 0]

/-- One probability source of weight 1 with a class-1 spike at sample 0. -/
def sources9 : List (List ProbRow × ℚ) :=
  [([⟨0, 9 / 10, 0, 0⟩, ⟨0, 0, 0, 0⟩, ⟨0, 0, 0, 0⟩], 1)]

/-! ### Helper lemmas about the decoder -/

theorem searchStep_good (best : Option (Combo × ℚ))
    (t : (ℕ × ℚ) × (ℕ × ℚ) × Option (ℕ × ℚ))
    (h : ∀ bc, best = some bc → GoodCombo bc.1) :
    ∀ bc, searchStep best t = some bc → GoodCombo bc.1 := by
  obtain ⟨a, b, c⟩ := t
  intro bc hbc
  simp only [searchStep] at hbc
  split at hbc
  · exact h bc hbc
  · rename_i hab
    cases c with
    | some k3 =>
      simp only at hbc
      split at hbc
      · exact h bc hbc
      · rename_i h23
        split at hbc
        · cases hbc
          refine ⟨a.1, b.1, rfl, rfl, by omega, ?_⟩
          intro k hk
          simp only [tripleCombo, Option.map_some] at hk
          cases hk
          omega
        · exact h bc hbc
    | none =>
      simp only at hbc
      split at hbc
      · cases hbc
        refine ⟨a.1, b.1, rfl, rfl, by omega, ?_⟩
        intro k hk
        simp [tripleCombo] at hk
      · exact h bc hbc

theorem foldl_searchStep_good (ts : List ((ℕ × ℚ) × (ℕ × ℚ) × Option (ℕ × ℚ)))
    (acc : Option (Combo × ℚ)) (h : ∀ bc, acc = some bc → GoodCombo bc.1) :
    ∀ bc, ts.foldl searchStep acc = some bc → GoodCombo bc.1 := by
  induction ts generalizing acc with
  | nil => exact h
  | cons t ts ih => exact fun bc hbc => ih _ (searchStep_good acc t h) bc hbc

theorem searchBest_good (c1 c2 c3 : List (ℕ × ℚ)) (bc : Combo × ℚ)
    (h : searchBest c1 c2 c3 = some bc) : GoodCombo bc.1 :=
  foldl_searchStep_good _ none (by intro bc hbc; cases hbc) bc h

theorem genCandidates_sorted (kp : ℕ) (jx proba : List ℚ) (prior : Option ℕ) :
    List.Sorted scoreGe (genCandidates kp jx proba prior) :=
  List.sorted_insertionSort scoreGe _

theorem sorted_head_max (l : List (ℕ × ℚ)) (h : List.Sorted scoreGe l)
    (hd : ℕ × ℚ) (hh : l.head? = some hd) : ∀ x ∈ l, x.2 ≤ hd.2 := by
  cases l with
  | nil => cases hh
  | cons y t =>
    cases hh
    intro x hx
    rcases List.mem_cons.mp hx with h1 | h2
    · exact h1 ▸ le_refl _
    · exact (List.rel_of_sorted_cons h) x h2

section ConcreteDecoder

attribute [local semireducible] Rat.add Rat.mul Rat.sub Rat.inv

/-- C1, counterexample.  On a 5-sample sequence whose class-1 and class-2
spikes are only 2 positions apart, `dp_post_process` returns the fallback
assignment with position(1) = 0 and position(2) = 2, which violates
position(1) + 20 ≤ position(2).  So the spacing invariant does NOT hold for
every value the function can return. -/
theorem C1_counterexample :
    dp_post_process jxFlat5 probaNear none none none =
      ⟨some 0, some 2, none⟩ ∧ ¬(0 + 20 ≤ 2) := by decide

end ConcreteDecoder

/-- C1, amended.  Whenever the constrained search finds an admissible
combination (so the fallback of main.py lines 529-534 is not taken), the
assignment returned by `dp_post_process` has classes 1 and 2 present with
position(1) + 20 ≤ position(2), and, when class 3 is present,
position(2) + 20 ≤ position(3).  The fallback path may violate the spacing. -/
theorem C1_spacing_on_search (jx : List ℚ) (proba : List ProbRow)
    (p1 p2 p3 : Option ℕ) (bc : Combo × ℚ)
    (h : searchBest (genCandidates 1 jx (colK 1 proba) p1)
        (genCandidates 2 jx (colK 2 proba) p2)
        (genCandidates 3 jx (colK 3 proba) p3) = some bc) :
    ∃ i j, (dp_post_process jx proba p1 p2 p3).k1 = some i ∧
      (dp_post_process jx proba p1 p2 p3).k2 = some j ∧ i + 20 ≤ j ∧
      ∀ k, (dp_post_process jx proba p1 p2 p3).k3 = some k → j + 20 ≤ k := by
  have hg := searchBest_good _ _ _ bc h
  simp only [dp_post_process, h]
  exact hg

section ConcreteDecoder2

attribute [local semireducible] Rat.add Rat.mul Rat.sub Rat.inv

/-- Witness for C1: a concrete input on which the search succeeds. -/
theorem C1_spacing_on_search_witness :
    ∃ i j, (dp_post_process jxFlat25 probaFar none none none).k1 = some i ∧
      (dp_post_process jxFlat25 probaFar none none none).k2 = some j ∧
      i + 20 ≤ j ∧
      ∀ k, (dp_post_process jxFlat25 probaFar none none none).k3 = some k →
        j + 20 ≤ k :=
  C1_spacing_on_search jxFlat25 probaFar none none none
    (⟨some 0, some 22, none⟩, 17 / 10) (by decide)

end ConcreteDecoder2

/-- C2.  When the constrained search finds no admissible combination
(in particular when class 1 or class 2 has no candidates), `dp_post_process`
returns the fallback: for each class independently the position of its first
candidate, which attains the maximal total score of that class; a class with
an empty candidate list is omitted (`none`), and the result is not the empty
assignment as soon as one class has a candidate. -/
theorem C2_fallback_best (jx : List ℚ) (proba : List ProbRow)
    (p1 p2 p3 : Option ℕ)
    (h : searchBest (genCandidates 1 jx (colK 1 proba) p1)
        (genCandidates 2 jx (colK 2 proba) p2)
        (genCandidates 3 jx (colK 3 proba) p3) = none) :
    dp_post_process jx proba p1 p2 p3 =
      fallbackCombo (genCandidates 1 jx (colK 1 proba) p1)
        (genCandidates 2 jx (colK 2 proba) p2)
        (genCandidates 3 jx (colK 3 proba) p3) ∧
    (∀ hd, (genCandidates 1 jx (colK 1 proba) p1).head? = some hd →
      (dp_post_process jx proba p1 p2 p3).k1 = some hd.1 ∧
      ∀ x ∈ genCandidates 1 jx (colK 1 proba) p1, x.2 ≤ hd.2) ∧
    (∀ hd, (genCandidates 2 jx (colK 2 proba) p2).head? = some hd →
      (dp_post_process jx proba p1 p2 p3).k2 = some hd.1 ∧
      ∀ x ∈ genCandidates 2 jx (colK 2 proba) p2, x.2 ≤ hd.2) ∧
    (∀ hd, (genCandidates 3 jx (colK 3 proba) p3).head? = some hd →
      (dp_post_process jx proba p1 p2 p3).k3 = some hd.1 ∧
      ∀ x ∈ genCandidates 3 jx (colK 3 proba) p3, x.2 ≤ hd.2) ∧
    (genCandidates 1 jx (colK 1 proba) p1 = [] →
      (dp_post_process jx proba p1 p2 p3).k1 = none) ∧
    (genCandidates 2 jx (colK 2 proba) p2 = [] →
      (dp_post_process jx proba p1 p2 p3).k2 = none) ∧
    (genCandidates 3 jx (colK 3 proba) p3 = [] →
      (dp_post_process jx proba p1 p2 p3).k3 = none) ∧
    (genCandidates 1 jx (colK 1 proba) p1 ≠ [] ∨
        genCandidates 2 jx (colK 2 proba) p2 ≠ [] ∨
        genCandidates 3 jx (colK 3 proba) p3 ≠ [] →
      dp_post_process jx proba p1 p2 p3 ≠ ⟨none, none, none⟩) := by
  have hdp : dp_post_process jx proba p1 p2 p3 =
      fallbackCombo (genCandidates 1 jx (colK 1 proba) p1)
        (genCandidates 2 jx (colK 2 proba) p2)
        (genCandidates 3 jx (colK 3 proba) p3) := by
    simp only [dp_post_process, h]
  refine ⟨hdp, ?_, ?_, ?_, ?_, ?_, ?_, ?_⟩
  · intro hd hh
    refine ⟨by rw [hdp]; simp [fallbackCombo, hh], ?_⟩
    exact sorted_head_max _ (genCandidates_sorted 1 jx (colK 1 proba) p1) hd hh
  · intro hd hh
    refine ⟨by rw [hdp]; simp [fallbackCombo, hh], ?_⟩
    exact sorted_head_max _ (genCandidates_sorted 2 jx (colK 2 proba) p2) hd hh
  · intro hd hh
    refine ⟨by rw [hdp]; simp [fallbackCombo, hh], ?_⟩
    exact sorted_head_max _ (genCandidates_sorted 3 jx (colK 3 proba) p3) hd hh
  · intro he; rw [hdp]; simp [fallbackCombo, he]
  · intro he; rw [hdp]; simp [fallbackCombo, he]
  · intro he; rw [hdp]; simp [fallbackCombo, he]
  · intro hne
    rw [hdp]
    rcases hne with hne | hne | hne <;>
    · intro hcon
      rcases List.exists_cons_of_ne_nil hne with ⟨y, t, hy⟩
      rw [hy] at hcon
      simp [fallbackCombo] at hcon

section ConcreteDecoder3

attribute [local semireducible] Rat.add Rat.mul Rat.sub Rat.inv

/-- Witness for C2: a concrete fallback input with candidates for classes 1
and 2 and none for class 3. -/
theorem C2_fallback_best_witness :
    dp_post_process jxFlat5 probaNear2 none none none =
      ⟨some 1, some 3, none⟩ ∧
    dp_post_process jxFlat5 probaNear2 none none none ≠ ⟨none, none, none⟩ := by
  have h := C2_fallback_best jxFlat5 probaNear2 none none none (by decide)
  refine ⟨?_, h.2.2.2.2.2.2.2 (Or.inl (by decide))⟩
  rw [h.1]
  decide

/-- C3, counterexample.  On a 12-sample sequence rising right after position
0, the class-1 candidate at position 0 DOES receive the 0.3 trend bonus (its
forward window `jx[1:11]` is complete as soon as n > 10): its score is
0.5 + 0.3 = 0.8, so a candidate at position 0 is not excluded from the bonus. -/
theorem C3_counterexample :
    (0, 4 / 5) ∈ genCandidates 1 jxRise12 pSpike0 none ∧
      physScore 1 jxRise12 0 = 3 / 10 := by decide

end ConcreteDecoder3

/-- C3, amended.  A candidate at the last position n-1 never receives the
trend bonus (for any class), and a class-2 candidate at position 0 never
receives it; such a candidate still enters the candidate list on its raw
probability alone (plus the independent prior bonus) whenever it is among the
top-10 positions and passes the 0.1 confidence floor.  (At position 0,
class-1 and class-3 candidates CAN receive the bonus when n > 10.) -/
theorem C3_boundary_no_bonus (jx proba : List ℚ) (prior : Option ℕ)
    (kp idx : ℕ) (hb : idx + 1 = jx.length ∨ (kp = 2 ∧ idx = 0)) :
    physScore kp jx idx = 0 ∧
    (idx ∈ lastN 10 (argsortAsc proba) → 1 / 10 < proba.getD idx 0 →
      ∃ s, (idx, s) ∈ genCandidates kp jx proba prior ∧
        s = proba.getD idx 0 + priorScore prior idx) := by
  have hphys : physScore kp jx idx = 0 := by
    simp only [physScore]
    rcases hb with hlast | ⟨hkp, hidx⟩
    · split_ifs <;> first | rfl | omega
    · subst hkp hidx
      split_ifs <;> first | rfl | omega
  refine ⟨hphys, ?_⟩
  intro htop hflr
  refine ⟨proba.getD idx 0 + physScore kp jx idx + priorScore prior idx, ?_, ?_⟩
  · unfold genCandidates
    rw [(List.perm_insertionSort scoreGe _).mem_iff]
    rw [List.mem_filterMap]
    refine ⟨idx, htop, ?_⟩
    rw [if_pos hflr]
  · rw [hphys, add_zero]

section ConcreteDecoder4

attribute [local semireducible] Rat.add Rat.mul Rat.sub Rat.inv

/-- Witness for C3: the last position of a 2-sample sequence. -/
theorem C3_boundary_no_bonus_witness :
    physScore 1 [0, 0] 1 = 0 ∧
    ∃ s, (1, s) ∈ genCandidates 1 [0, 0] [0, 1 / 2] none ∧
      s = ([0, 1 / 2] : List ℚ).getD 1 0 + priorScore none 1 :=
  ⟨(C3_boundary_no_bonus [0, 0] [0, 1 / 2] none 1 1 (Or.inl (by decide))).1,
   (C3_boundary_no_bonus [0, 0] [0, 1 / 2] none 1 1 (Or.inl (by decide))).2
     (by decide) (by decide)⟩

/-- C4, counterexample.  On a constant 20-sample sequence at position 10 the
claimed condition holds (pos ≥ 10, pos ≤ n-10 = 10, and the window of first
differences has variance 0 < 0.2^2), yet the code awards no bonus because its
guard is the strict `pos < n - 10`. -/
theorem C4_counterexample :
    physScore 2 (List.replicate 20 (0 : ℚ)) 10 = 0 ∧
      10 ≤ (List.replicate 20 (0 : ℚ)).length - 10 ∧
      varPop (sliceL (diffPrepend (List.replicate 20 (0 : ℚ))) 0 20) <
        (1 / 5) ^ 2 := by decide

end ConcreteDecoder4

/-- C4, amended.  The class-2 trend bonus is awarded exactly when pos ≥ 10
and pos + 10 < n (i.e. pos ≤ n-11, not pos ≤ n-10) and the centered window
`jx_diff[pos-10:pos+10]` has standard deviation < 0.2 (stated as variance
< 0.2^2). -/
theorem C4_stabilize_bonus_iff (jx : List ℚ) (idx : ℕ) :
    physScore 2 jx idx = 3 / 10 ↔
      10 ≤ idx ∧ idx + 10 < jx.length ∧
        varPop (sliceL (diffPrepend jx) (idx - 10) (idx + 10)) < (1 / 5) ^ 2 := by
  have hnf : physScore 2 jx idx =
      if 10 ≤ idx ∧ idx < jx.length - 10 then
        if varPop (sliceL (diffPrepend jx) (idx - 10) (idx + 10)) < (1 / 5) ^ 2
          then 3 / 10 else 0
      else 0 := rfl
  rw [hnf]
  split_ifs with h1 h2
  · constructor
    · exact fun _ => ⟨h1.1, by omega, h2⟩
    · exact fun _ => rfl
  · constructor
    · intro hc
      exact absurd hc (by norm_num)
    · exact fun hc => absurd hc.2.2 h2
  · constructor
    · intro hc
      exact absurd hc (by norm_num)
    · intro hc
      exact absurd ⟨hc.1, by omega⟩ h1

section ConcreteDecoder5

attribute [local semireducible] Rat.add Rat.mul Rat.sub Rat.inv

/-- C5, counterexample.  Class-1 candidates at positions 3 (raw 0.5, no
bonus) and 5 (raw 0.2 + 0.3 trend bonus) both have total score 0.5, and the
generated list is [(5, 1/2), (3, 1/2)]: the tie is NOT broken by the smaller
position index — equal-score candidates keep generation order, which is
ascending raw probability. -/
theorem C5_counterexample :
    genCandidates 1 jxStep20 pTie none = [(5, 1 / 2), (3, 1 / 2)] := by decide

end ConcreteDecoder5

/-- C5, amended.  The candidate list handed to the decoder search is sorted
in descending order of total score; the order of equal-score candidates is
the generation order (ascending raw probability among the top-10), not the
ascending position order. -/
theorem C5_sorted_desc (kp : ℕ) (jx proba : List ℚ) (prior : Option ℕ) :
    List.Pairwise (fun a b : ℕ × ℚ => b.2 ≤ a.2)
      (genCandidates kp jx proba prior) :=
  genCandidates_sorted kp jx proba prior

/-! ### Helper lemmas about the batch driver -/

theorem getD_of_lt {α : Type} (l : List α) (d : α) (n : ℕ) (h : n < l.length) :
    l.getD n d = l[n] := by
  rw [List.getD_eq_getElem?_getD, List.getElem?_eq_getElem h]
  rfl

theorem getD_set_ne {α : Type} (l : List α) (d : α) (j i : ℕ) (v : α)
    (h : j ≠ i) : (l.set j v).getD i d = l.getD i d := by
  rw [List.getD_eq_getElem?_getD, List.getD_eq_getElem?_getD,
    List.getElem?_set_ne h]

theorem getD_replicate_zero (n i : ℕ) :
    (List.replicate n (0 : ℕ)).getD i 0 = 0 := by
  rw [List.getD_eq_getElem?_getD, List.getElem?_replicate]
  split_ifs <;> rfl

theorem mem_uniqueAux (l : List ℕ) :
    ∀ (seen : List ℕ) (x : ℕ), x ∈ uniqueAux seen l ↔ x ∈ l ∧ x ∉ seen := by
  induction l with
  | nil => intro seen x; simp [uniqueAux]
  | cons y ys ih =>
    intro seen x
    simp only [uniqueAux]
    split_ifs with hy
    · rw [ih]
      constructor
      · exact fun h => ⟨List.mem_cons_of_mem _ h.1, h.2⟩
      · rintro ⟨h1, h2⟩
        rcases List.mem_cons.mp h1 with rfl | h1
        · exact absurd hy h2
        · exact ⟨h1, h2⟩
    · constructor
      · intro hx
        rcases List.mem_cons.mp hx with rfl | hx
        · exact ⟨List.mem_cons_self _ _, hy⟩
        · obtain ⟨h1, h2⟩ := (ih (y :: seen) x).mp hx
          exact ⟨List.mem_cons_of_mem _ h1,
            fun hs => h2 (List.mem_cons_of_mem _ hs)⟩
      · rintro ⟨h1, h2⟩
        rcases List.mem_cons.mp h1 with rfl | h1
        · exact List.mem_cons_self _ _
        · by_cases hxy : x = y
          · subst hxy
            exact List.mem_cons_self _ _
          · refine List.mem_cons_of_mem _ ((ih (y :: seen) x).mpr ⟨h1, ?_⟩)
            exact fun hs => (List.mem_cons.mp hs).elim hxy h2

theorem mem_uniqueList (l : List ℕ) (x : ℕ) : x ∈ uniqueList l ↔ x ∈ l := by
  rw [uniqueList, mem_uniqueAux]
  simp

theorem nodup_uniqueAux (l : List ℕ) : ∀ seen, (uniqueAux seen l).Nodup := by
  induction l with
  | nil => intro seen; simp [uniqueAux]
  | cons y ys ih =>
    intro seen
    simp only [uniqueAux]
    split_ifs with hy
    · exact ih seen
    · refine List.nodup_cons.mpr ⟨fun hmem => ?_, ih (y :: seen)⟩
      exact ((mem_uniqueAux ys (y :: seen) y).mp hmem).2 (List.mem_cons_self y seen)

theorem nodup_uniqueList (l : List ℕ) : (uniqueList l).Nodup :=
  nodup_uniqueAux l []

theorem mem_groupIdx (wellIds : List ℕ) (w i : ℕ) :
    i ∈ groupIdx wellIds w ↔ i < wellIds.length ∧ wellIds.getD i 0 = w := by
  simp [groupIdx, List.mem_filter, List.mem_range]

theorem mem_selectedIdxs (g : List ℕ) (c : Combo) (i : ℕ) :
    i ∈ selectedIdxs g c ↔
      ∃ o ∈ [c.k1, c.k2, c.k3], ∃ idx, o = some idx ∧ idx < g.length ∧
        g.getD idx 0 = i := by
  simp only [selectedIdxs, List.mem_filterMap, Option.bind_eq_some]
  constructor
  · rintro ⟨o, ho, idx, hoidx, hif⟩
    by_cases hlt : idx < g.length
    · rw [if_pos hlt] at hif
      cases hif
      exact ⟨o, ho, idx, hoidx, hlt, rfl⟩
    · rw [if_neg hlt] at hif
      cases hif
  · rintro ⟨o, ho, idx, hoidx, hlt, hgd⟩
    exact ⟨o, ho, idx, hoidx, by rw [if_pos hlt, hgd]⟩

theorem selectedIdxs_subset (g : List ℕ) (c : Combo) (i : ℕ)
    (h : i ∈ selectedIdxs g c) : i ∈ g := by
  obtain ⟨o, _, idx, _, hlt, hgd⟩ := (mem_selectedIdxs g c i).mp h
  have hm : g.getD idx 0 ∈ g := by
    rw [getD_of_lt g 0 idx hlt]
    exact List.getElem_mem hlt
  rwa [hgd] at hm

theorem markStep_change (g : List ℕ) (kp : ℕ) (o : Option ℕ) (p : List ℕ)
    (i : ℕ) (h : (markStep g kp o p).getD i 0 ≠ p.getD i 0) :
    ∃ idx, o = some idx ∧ idx < g.length ∧ g.getD idx 0 = i := by
  cases o with
  | none => exact absurd rfl h
  | some idx =>
    simp only [markStep] at h
    split_ifs at h with hlen
    · by_cases hi : g.getD idx 0 = i
      · exact ⟨idx, rfl, hlen, hi⟩
      · exact absurd (getD_set_ne p 0 _ i kp hi) h
    · exact absurd rfl h

theorem markCombo_change (g : List ℕ) (c : Combo) (p : List ℕ) (i : ℕ)
    (h : (markCombo g c p).getD i 0 ≠ p.getD i 0) : i ∈ selectedIdxs g c := by
  by_cases h1 : (markStep g 1 c.k1 p).getD i 0 = p.getD i 0
  · by_cases h2 : (markStep g 2 c.k2 (markStep g 1 c.k1 p)).getD i 0 =
        (markStep g 1 c.k1 p).getD i 0
    · have h3 : (markStep g 3 c.k3
          (markStep g 2 c.k2 (markStep g 1 c.k1 p))).getD i 0 ≠
          (markStep g 2 c.k2 (markStep g 1 c.k1 p)).getD i 0 :=
        fun e => h (e.trans (h2.trans h1))
      obtain ⟨idx, ho, hlt, hgd⟩ := markStep_change g 3 c.k3 _ i h3
      exact (mem_selectedIdxs g c i).mpr ⟨c.k3, by simp, idx, ho, hlt, hgd⟩
    · obtain ⟨idx, ho, hlt, hgd⟩ := markStep_change g 2 c.k2 _ i h2
      exact (mem_selectedIdxs g c i).mpr ⟨c.k2, by simp, idx, ho, hlt, hgd⟩
  · obtain ⟨idx, ho, hlt, hgd⟩ := markStep_change g 1 c.k1 p i h1
    exact (mem_selectedIdxs g c i).mpr ⟨c.k1, by simp, idx, ho, hlt, hgd⟩

theorem foldl_processWell_change (wellIds : List ℕ) (jxs : List ℚ)
    (fused : List ProbRow) (d1 d2 d3 : Option (List ℚ)) (ws : List ℕ) :
    ∀ (acc : List ℕ) (i : ℕ),
      (ws.foldl (processWell wellIds jxs fused d1 d2 d3) acc).getD i 0 ≠
        acc.getD i 0 →
      ∃ w ∈ ws, i ∈ selectedIdxs (groupIdx wellIds w)
        (comboOf wellIds jxs fused d1 d2 d3 w) := by
  induction ws with
  | nil => intro acc i h; exact absurd rfl h
  | cons w ws ih =>
    intro acc i h
    rw [List.foldl_cons] at h
    by_cases hw : (processWell wellIds jxs fused d1 d2 d3 acc w).getD i 0 =
        acc.getD i 0
    · obtain ⟨v, hv, hm⟩ := ih _ i (fun e => h (e.trans hw))
      exact ⟨v, List.mem_cons_of_mem _ hv, hm⟩
    · exact ⟨w, List.mem_cons_self w ws, markCombo_change _ _ _ i hw⟩

theorem length_markStep (g : List ℕ) (kp : ℕ) (o : Option ℕ) (p : List ℕ) :
    (markStep g kp o p).length = p.length := by
  cases o with
  | none => rfl
  | some idx =>
    simp only [markStep]
    split_ifs <;> simp

theorem length_markCombo (g : List ℕ) (c : Combo) (p : List ℕ) :
    (markCombo g c p).length = p.length := by
  simp [markCombo, length_markStep]

theorem length_foldl_processWell (wellIds : List ℕ) (jxs : List ℚ)
    (fused : List ProbRow) (d1 d2 d3 : Option (List ℚ)) (ws : List ℕ) :
    ∀ acc : List ℕ,
      (ws.foldl (processWell wellIds jxs fused d1 d2 d3) acc).length =
        acc.length := by
  induction ws with
  | nil => intro acc; rfl
  | cons w ws ih =>
    intro acc
    rw [List.foldl_cons, ih]
    exact length_markCombo _ _ _

theorem listMin_le (l : List ℚ) : ∀ x ∈ l, listMin l ≤ x := by
  induction l with
  | nil => intro x hx; cases hx
  | cons a t ih =>
    intro x hx
    rcases List.mem_cons.mp hx with rfl | hx
    · cases t with
      | nil => exact le_refl _
      | cons b t2 => simp only [listMin]; exact min_le_left _ _
    · cases t with
      | nil => cases hx
      | cons b t2 =>
        simp only [listMin]
        exact le_trans (min_le_right _ _) (ih x hx)

theorem listMin_mem (l : List ℚ) (hl : l ≠ []) : listMin l ∈ l := by
  induction l with
  | nil => exact absurd rfl hl
  | cons a t ih =>
    cases t with
    | nil => simp [listMin]
    | cons b t2 =>
      simp only [listMin]
      rcases min_choice a (listMin (b :: t2)) with h | h
      · rw [h]; exact List.mem_cons_self _ _
      · rw [h]; exact List.mem_cons_of_mem _ (ih (by simp))

theorem amFold_mem (l : List ℚ) (is : List ℕ) :
    ∀ init : ℕ, is.foldl (amStep l) init = init ∨
      is.foldl (amStep l) init ∈ is := by
  induction is with
  | nil => intro init; exact Or.inl rfl
  | cons i is ih =>
    intro init
    rw [List.foldl_cons]
    rcases ih (amStep l init i) with h | h
    · rw [h]
      simp only [amStep]
      split_ifs
      · exact Or.inr (List.mem_cons_self _ _)
      · exact Or.inl rfl
    · exact Or.inr (List.mem_cons_of_mem _ h)

theorem amFold_le (l : List ℚ) (is : List ℕ) :
    ∀ (init j : ℕ), (j = init ∨ j ∈ is) →
      l.getD (is.foldl (amStep l) init) 0 ≤ l.getD j 0 := by
  induction is with
  | nil =>
    rintro init j (rfl | h)
    · exact le_refl _
    · cases h
  | cons i is ih =>
    intro init j hj
    rw [List.foldl_cons]
    have hstep : l.getD (amStep l init i) 0 ≤ l.getD init 0 ∧
        l.getD (amStep l init i) 0 ≤ l.getD i 0 := by
      simp only [amStep]
      split_ifs with hc
      · exact ⟨le_of_lt hc, le_refl _⟩
      · exact ⟨le_refl _, le_of_not_lt hc⟩
    rcases hj with rfl | hj
    · exact le_trans (ih _ _ (Or.inl rfl)) hstep.1
    · rcases List.mem_cons.mp hj with rfl | hj
      · exact le_trans (ih _ _ (Or.inl rfl)) hstep.2
      · exact ih _ j (Or.inr hj)

theorem argminFirst_spec (l : List ℚ) (hl : l ≠ []) :
    argminFirst l < l.length ∧ l.getD (argminFirst l) 0 = listMin l := by
  have hlen : 0 < l.length := List.length_pos.mpr hl
  have hmem : argminFirst l < l.length := by
    rcases amFold_mem l (List.range l.length) 0 with h | h
    · rw [argminFirst, h]; exact hlen
    · exact List.mem_range.mp h
  refine ⟨hmem, le_antisymm ?_ ?_⟩
  · obtain ⟨j, hj, hje⟩ := List.mem_iff_getElem.mp (listMin_mem l hl)
    have hle := amFold_le l (List.range l.length) 0 j
      (Or.inr (List.mem_range.mpr hj))
    rw [getD_of_lt l 0 j hj, hje] at hle
    exact hle
  · refine listMin_le l _ ?_
    rw [getD_of_lt l 0 _ hmem]
    exact List.getElem_mem hmem

/-- C6, counterexample.  A present distance column whose minimum on the group
is 950: this is below the claimed sentinel threshold 999, yet the code
derives no hint because its guard is `min < 900`. -/
theorem C6_counterexample :
    extractPrior (some [950]) [0] = none ∧ listMin [(950 : ℚ)] < 999 := by
  constructor
  · rfl
  · norm_num [listMin]

/-- C6, amended.  For a nonempty group, a prior hint is derived exactly when
the per-class distance column is present and the minimum of its values on
the group is strictly below 900 (not 999, which is only the sentinel value
the feature generator writes); the hint is then an index of the gathered
distance list attaining that minimum.  No hint is derived (without error)
otherwise. -/
theorem C6_prior_hint (col : Option (List ℚ)) (gidx : List ℕ)
    (hg : gidx ≠ []) :
    ((extractPrior col gidx).isSome ↔
      ∃ c, col = some c ∧ listMin (gidx.map fun i => c.getD i 0) < 900) ∧
    ∀ h, extractPrior col gidx = some h →
      ∃ c, col = some c ∧ h < (gidx.map fun i => c.getD i 0).length ∧
        (gidx.map fun i => c.getD i 0).getD h 0 =
          listMin (gidx.map fun i => c.getD i 0) := by
  constructor
  · cases col with
    | none =>
      simp [extractPrior]
    | some c =>
      simp only [extractPrior]
      split_ifs with hmin
      · exact iff_of_true (by simp) ⟨c, rfl, hmin⟩
      · refine iff_of_false (by simp) ?_
        rintro ⟨c2, hc2, hm2⟩
        cases hc2
        exact hmin hm2
  · intro h hh
    cases col with
    | none => cases hh
    | some c =>
      simp only [extractPrior] at hh
      by_cases hmin : listMin (gidx.map fun i => c.getD i 0) < 900
      · rw [if_pos hmin] at hh
        cases hh
        have hne : (gidx.map fun i => c.getD i 0) ≠ [] := by
          intro hmapnil
          exact hg (List.map_eq_nil_iff.mp hmapnil)
        obtain ⟨h1, h2⟩ := argminFirst_spec _ hne
        exact ⟨c, rfl, h1, h2⟩
      · rw [if_neg hmin] at hh
        cases hh

/-- Witness for C6: a present column over a three-sample group with minimum
0 at index 1. -/
theorem C6_prior_hint_witness :
    ((extractPrior (some [5, 0, 3]) [0, 1, 2]).isSome ↔
      ∃ c, (some [5, 0, 3] : Option (List ℚ)) = some c ∧
        listMin (([0, 1, 2] : List ℕ).map fun i => c.getD i 0) < 900) ∧
    ∀ h, extractPrior (some [5, 0, 3]) [0, 1, 2] = some h →
      ∃ c, (some [5, 0, 3] : Option (List ℚ)) = some c ∧
        h < (([0, 1, 2] : List ℕ).map fun i => c.getD i 0).length ∧
        (([0, 1, 2] : List ℕ).map fun i => c.getD i 0).getD h 0 =
          listMin (([0, 1, 2] : List ℕ).map fun i => c.getD i 0) :=
  C6_prior_hint (some [5, 0, 3]) [0, 1, 2] (by decide)

/-- C9.  `advanced_post_process` iterates the distinct well ids exactly once
(the iteration list is duplicate-free and covers every id present); the
output has the same length as the input sample list; and every nonzero
output entry sits at a global index that the decode of ITS OWN well selected
(so all other entries are 0, and a well never writes outside its own index
range). -/
theorem C9_batch_structure (wellIds : List ℕ) (jxs : List ℚ)
    (sources : List (List ProbRow × ℚ)) (d1 d2 d3 : Option (List ℚ)) :
    (advanced_post_process wellIds jxs sources d1 d2 d3).length =
      wellIds.length ∧
    (uniqueList wellIds).Nodup ∧
    (∀ w, w ∈ uniqueList wellIds ↔ w ∈ wellIds) ∧
    ∀ i, (advanced_post_process wellIds jxs sources d1 d2 d3).getD i 0 ≠ 0 →
      i < wellIds.length ∧
      i ∈ selectedIdxs (groupIdx wellIds (wellIds.getD i 0))
        (comboOf wellIds jxs (fuseProba wellIds.length sources) d1 d2 d3
          (wellIds.getD i 0)) := by
  refine ⟨?_, nodup_uniqueList wellIds, fun w => mem_uniqueList wellIds w, ?_⟩
  · rw [advanced_post_process, length_foldl_processWell, List.length_replicate]
  · intro i h
    have hch : (advanced_post_process wellIds jxs sources d1 d2 d3).getD i 0 ≠
        (List.replicate wellIds.length (0 : ℕ)).getD i 0 := by
      rw [getD_replicate_zero]
      exact h
    rw [advanced_post_process] at hch
    obtain ⟨w, _, hm⟩ := foldl_processWell_change wellIds jxs
      (fuseProba wellIds.length sources) d1 d2 d3 (uniqueList wellIds) _ i hch
    have hig := selectedIdxs_subset _ _ _ hm
    obtain ⟨hilt, hieq⟩ := (mem_groupIdx wellIds w i).mp hig
    refine ⟨hilt, ?_⟩
    rw [hieq]
    exact hm

section ConcreteBatch

attribute [local semireducible] Rat.add Rat.mul Rat.sub Rat.inv

/-- Witness for C9: a single three-sample well whose decode marks sample 0
with class 1. -/
theorem C9_batch_structure_witness :
    (advanced_post_process wellIds9 jxs9 sources9 none none none).length = 3 ∧
    0 ∈ selectedIdxs (groupIdx wellIds9 7)
      (comboOf wellIds9 jxs9 (fuseProba 3 sources9) none none none 7) := by
  have h := C9_batch_structure wellIds9 jxs9 sources9 none none none
  exact ⟨h.1, (h.2.2.2 0 (by decide)).2⟩

end ConcreteBatch

/-! ### Helper lemmas about the metric -/

theorem adjustedPair_fst (yt yp ids : List ℕ) (t1 t2 : ℕ) :
    (adjustedPair yt yp ids t1 t2).1 = yt := by
  rw [adjustedPair]
  have h : ∀ (ws : List ℕ) (st : List ℕ × List ℕ),
      (ws.foldl (fun st w => (st.1, adjustWell yt yp ids t1 t2 st.2 w)) st).1 =
        st.1 := by
    intro ws
    induction ws with
    | nil => intro st; rfl
    | cons w ws ih => intro st; rw [List.foldl_cons]; exact ih _
  exact h _ _

theorem adjustedPair_snd (yt yp ids : List ℕ) (t1 t2 : ℕ) :
    (adjustedPair yt yp ids t1 t2).2 = adjustedPred yt yp ids t1 t2 := by
  rw [adjustedPair, adjustedPred]
  have h : ∀ (ws : List ℕ) (st : List ℕ × List ℕ),
      (ws.foldl (fun st w => (st.1, adjustWell yt yp ids t1 t2 st.2 w)) st).2 =
        ws.foldl (adjustWell yt yp ids t1 t2) st.2 := by
    intro ws
    induction ws with
    | nil => intro st; rfl
    | cons w ws ih => intro st; rw [List.foldl_cons, List.foldl_cons]; exact ih _
  exact h _ _

theorem mem_npUnique (l : List ℕ) (x : ℕ) : x ∈ npUnique l ↔ x ∈ l := by
  rw [npUnique, (List.perm_insertionSort _ _).mem_iff, mem_uniqueList]

theorem mem_labelsOf (t p : List ℕ) (c : ℕ) :
    c ∈ labelsOf t p ↔ c ∈ t ∨ c ∈ p := by
  rw [labelsOf, mem_npUnique, List.mem_append]

theorem set_getD_self (l : List ℕ) (i : ℕ) (h : i < l.length) :
    l.set i (l.getD i 0) = l := by
  induction l generalizing i with
  | nil => cases h
  | cons a t ih =>
    cases i with
    | zero => rfl
    | succ i =>
      have hgd : (a :: t).getD (i + 1) 0 = t.getD i 0 := rfl
      rw [hgd]
      show a :: t.set i (t.getD i 0) = a :: t
      rw [ih i (Nat.lt_of_succ_lt_succ h)]

theorem firstIdxWith_mem_eq (lbls idxs : List ℕ) (kp i : ℕ)
    (h : firstIdxWith lbls idxs kp = some i) :
    i ∈ idxs ∧ lbls.getD i 0 = kp := by
  refine ⟨List.mem_of_find?_eq_some h, ?_⟩
  have hp := List.find?_some h
  exact eq_of_beq hp

theorem adjustWellStep_self (yt idxs : List ℕ) (t1 t2 kp : ℕ) (hkp : kp ≠ 0) :
    adjustWellStep yt yt idxs t1 t2 yt kp = yt := by
  cases hf : firstIdxWith yt idxs kp with
  | none => simp [adjustWellStep, hf]
  | some tpos =>
    simp only [adjustWellStep, hf]
    rw [if_pos (by simp)]
    rw [List.set_set]
    have h2 := (firstIdxWith_mem_eq yt idxs kp tpos hf).2
    have hlt : tpos < yt.length := by
      by_contra hge
      push_neg at hge
      have hz : yt.getD tpos 0 = 0 := by
        rw [List.getD_eq_getElem?_getD, List.getElem?_eq_none hge]
        rfl
      rw [hz] at h2
      exact hkp h2.symm
    calc yt.set tpos kp = yt.set tpos (yt.getD tpos 0) := by rw [h2]
    _ = yt := set_getD_self yt tpos hlt

theorem adjustWell_self (yt ids : List ℕ) (t1 t2 w : ℕ) :
    adjustWell yt yt ids t1 t2 yt w = yt := by
  rw [adjustWell, adjustWellStep_self yt _ t1 t2 1 (by omega),
    adjustWellStep_self yt _ t1 t2 2 (by omega),
    adjustWellStep_self yt _ t1 t2 3 (by omega)]

theorem tpN_self (l : List ℕ) (c : ℕ) : tpN l l c = l.count c := by
  induction l with
  | nil => rfl
  | cons a t ih =>
    have hz : List.zip (a :: t) (a :: t) = (a, a) :: List.zip t t := rfl
    simp only [tpN, hz, List.countP_cons, List.count_cons] at ih ⊢
    rw [ih]
    simp [Bool.and_self]

theorem fpN_self (l : List ℕ) (c : ℕ) : fpN l l c = 0 := by
  induction l with
  | nil => rfl
  | cons a t ih =>
    have hz : List.zip (a :: t) (a :: t) = (a, a) :: List.zip t t := rfl
    simp only [fpN, hz, List.countP_cons] at ih ⊢
    rw [ih]
    cases h : (a == c) <;> simp [h]

theorem fnN_self (l : List ℕ) (c : ℕ) : fnN l l c = 0 := by
  induction l with
  | nil => rfl
  | cons a t ih =>
    have hz : List.zip (a :: t) (a :: t) = (a, a) :: List.zip t t := rfl
    simp only [fnN, hz, List.countP_cons] at ih ⊢
    rw [ih]
    cases h : (a == c) <;> simp [h]

theorem f1Class_self (l : List ℕ) (c : ℕ) (hc : c ∈ l) : f1Class l l c = 1 := by
  have hcnt : 0 < l.count c := List.count_pos_iff.mpr hc
  simp only [f1Class, tpN_self, fpN_self, fnN_self]
  rw [if_neg (by omega)]
  have hd : (2 * l.count c + 0 + 0 : ℕ) = 2 * l.count c := by omega
  rw [hd]
  push_cast
  rw [div_self]
  have hgt : (0 : ℚ) < 2 * (l.count c : ℚ) := by
    have : (0 : ℚ) < (l.count c : ℚ) := by exact_mod_cast hcnt
    linarith
  exact ne_of_gt hgt

theorem sum_map_ones (ls : List ℕ) (f : ℕ → ℚ) (hf : ∀ x ∈ ls, f x = 1) :
    (ls.map f).sum = ls.length := by
  induction ls with
  | nil => simp
  | cons a t ih =>
    rw [List.map_cons, List.sum_cons, hf a (List.mem_cons_self _ _),
      ih (fun x hx => hf x (List.mem_cons_of_mem _ hx)), List.length_cons]
    push_cast
    ring

theorem sklearnMacroF1_self (l : List ℕ) (hl : l ≠ []) : sklearnMacroF1 l l = 1 := by
  have hmem : ∀ c ∈ labelsOf l l, c ∈ l :=
    fun c hc => ((mem_labelsOf l l c).mp hc).elim id id
  have hsum := sum_map_ones (labelsOf l l) (f1Class l l)
    (fun c hc => f1Class_self l c (hmem c hc))
  rw [sklearnMacroF1, hsum]
  have hne : labelsOf l l ≠ [] := by
    obtain ⟨a, ha⟩ := List.exists_mem_of_ne_nil l hl
    intro he
    have hmm := (mem_labelsOf l l a).mpr (Or.inl ha)
    rw [he] at hmm
    cases hmm
  rw [div_self]
  exact Nat.cast_ne_zero.mpr (fun h0 => hne (List.length_eq_zero.mp h0))

section ConcreteMetric

attribute [local semireducible] Rat.add Rat.mul Rat.sub Rat.inv

/-- C7, counterexample.  On the one-sample input y_true = y_pred = [0] the
adjustment is the identity and the code (sklearn with `labels=None`) averages
over the single present class {0}, returning F1 = 1; averaging over the four
classes {0,1,2,3} with absent classes contributing 0 would return 1/4. -/
theorem C7_counterexample :
    macro_f1_with_tolerance [0] [0] [0] 1 2 = 1 ∧
    adjustedPair [0] [0] [0] 1 2 = ([0], [0]) ∧
    macroF1overFour [0] [0] = 1 / 4 := by decide

end ConcreteMetric

/-- C7, amended.  The value returned by `macro_f1_with_tolerance` is the
unweighted mean of the per-class F1 (with `zero_division=0`) over the SORTED
SET OF CLASSES PRESENT in the adjusted truth or prediction vector — not over
the fixed set {0,1,2,3}: a class absent from both vectors is excluded from
the average rather than contributing 0. -/
theorem C7_macro_over_present (yt yp ids : List ℕ) (t1 t2 : ℕ) :
    macro_f1_with_tolerance yt yp ids t1 t2 =
      ((labelsOf yt (adjustedPred yt yp ids t1 t2)).map
        (f1Class yt (adjustedPred yt yp ids t1 t2))).sum /
      (labelsOf yt (adjustedPred yt yp ids t1 t2)).length ∧
    ∀ c, c ∈ labelsOf yt (adjustedPred yt yp ids t1 t2) ↔
      c ∈ yt ∨ c ∈ adjustedPred yt yp ids t1 t2 := by
  constructor
  · rw [macro_f1_with_tolerance, adjustedPair_fst, adjustedPair_snd]
    rfl
  · exact fun c => mem_labelsOf _ _ c

/-- C8.  When the predicted vector equals the true vector, the forgiveness
adjustment is a no-op for EVERY such input (the adjusted pair equals the
inputs, whether or not any keypoint class is placed), and when additionally
all three keypoint classes are placed the returned score is 1. -/
theorem C8_exact_match (yt yp ids : List ℕ) (t1 t2 : ℕ) (heq : yp = yt) :
    adjustedPair yt yp ids t1 t2 = (yt, yt) ∧
    (1 ∈ yt → 2 ∈ yt → 3 ∈ yt →
      macro_f1_with_tolerance yt yp ids t1 t2 = 1) := by
  subst heq
  have hpair : adjustedPair yp yp ids t1 t2 = (yp, yp) := by
    rw [adjustedPair]
    have hfold : ∀ ws : List ℕ,
        ws.foldl (fun st w => (st.1, adjustWell yp yp ids t1 t2 st.2 w))
          (yp, yp) = (yp, yp) := by
      intro ws
      induction ws with
      | nil => rfl
      | cons w ws ih =>
        rw [List.foldl_cons]
        show ws.foldl _ (yp, adjustWell yp yp ids t1 t2 yp w) = (yp, yp)
        rw [adjustWell_self]
        exact ih
    exact hfold _
  refine ⟨hpair, ?_⟩
  intro h1 _ _
  rw [macro_f1_with_tolerance, hpair]
  exact sklearnMacroF1_self yp (List.ne_nil_of_mem h1)

section ConcreteMetric2

attribute [local semireducible] Rat.add Rat.mul Rat.sub Rat.inv

/-- Witness for C8: an exactly matching three-sample well carrying all three
keypoint classes. -/
theorem C8_exact_match_witness :
    adjustedPair [1, 2, 3] [1, 2, 3] [0, 0, 0] 1 2 = ([1, 2, 3], [1, 2, 3]) ∧
    macro_f1_with_tolerance [1, 2, 3] [1, 2, 3] [0, 0, 0] 1 2 = 1 :=
  ⟨(C8_exact_match [1, 2, 3] [1, 2, 3] [0, 0, 0] 1 2 rfl).1,
   (C8_exact_match [1, 2, 3] [1, 2, 3] [0, 0, 0] 1 2 rfl).2 (by decide)
     (by decide) (by decide)⟩

end ConcreteMetric2

/-- C10.  The truth vector carried through the forgiveness loop is never
written, so the truth array used in the final F1 computation equals the input
`y_true` element for element, and the returned score is the macro F1 of the
input truth against the adjusted copy of the predictions (the embedding is
pure: the inputs themselves are values and cannot be mutated). -/
theorem C10_truth_unchanged (yt yp ids : List ℕ) (t1 t2 : ℕ) :
    (adjustedPair yt yp ids t1 t2).1 = yt ∧
    macro_f1_with_tolerance yt yp ids t1 t2 =
      sklearnMacroF1 yt (adjustedPair yt yp ids t1 t2).2 := by
  refine ⟨adjustedPair_fst yt yp ids t1 t2, ?_⟩
  rw [macro_f1_with_tolerance, adjustedPair_fst]

end WellKP
